import Mathlib

/-!
# Formal model of `rule_one.py`

A shallow embedding of the Rule One deal screener.  Python floats are
modelled as rationals (`ℚ`), Python's `round` builtin as round-half-to-even,
`int()` as truncation toward zero, Python `dict`s as insertion-ordered
association lists, and `sorted` as a stable merge sort driven by
`Deal.__lt__`.  External effects (the yfinance `Ticker` quote provider and
the sticker-price HTTP endpoint) are modelled as explicit function
parameters.
-/

namespace RuleOne

/-- Python's `round(x)`: round to the nearest integer, ties to even. -/
def pyRound (q : ℚ) : ℤ :=
  if q - ⌊q⌋ < 1/2 then ⌊q⌋
  else if 1/2 < q - ⌊q⌋ then ⌊q⌋ + 1
  else if ⌊q⌋ % 2 = 0 then ⌊q⌋ else ⌊q⌋ + 1

/-- Python's `round(x, 2)`: round to the nearest multiple of `1/100`,
ties to even. -/
def pyRound2 (q : ℚ) : ℚ := (pyRound (q * 100) : ℚ) / 100

/-- Python's `int(x)` on a number: truncation toward zero. -/
def pyInt (q : ℚ) : ℤ := if 0 ≤ q then ⌊q⌋ else ⌈q⌉

/-- `Company` from `rule_one.py`: a symbol plus a user-supplied sticker
(reference) price. -/
structure Company where
  symbol : String
  sticker_price : ℚ
deriving DecidableEq

/-- `Deal` from `rule_one.py`. -/
structure Deal where
  symbol : String
  sticker_price : ℚ
  price : ℚ
  percent_of_sticker : ℤ
deriving DecidableEq

/-- `Deal.__lt__`: comparison by `percent_of_sticker` only. -/
def Deal.lt (self other : Deal) : Bool :=
  self.percent_of_sticker < other.percent_of_sticker

/-- `MockTicker`: the stubbed quote provider. A provider is modelled as a
function from symbol to the `currentPrice` it reports. -/
def MockTicker (symbol : String) : ℚ :=
  if symbol == "msft" then 705/2 else 98

/-- Assignment `d[k] = v` on a Python dict modelled as an
insertion-ordered association list: an existing key keeps its position and
gets the new value, a fresh key is appended at the end. -/
def dictInsert {β : Type} (d : List (String × β)) (k : String) (v : β) :
    List (String × β) :=
  if d.any (fun p => p.1 == k) then
    d.map (fun p => if p.1 == k then (k, v) else p)
  else d ++ [(k, v)]

/-- Lookup `d[k]` on the association-list model of a dict. -/
def dictFind {β : Type} (d : List (String × β)) (k : String) : Option β :=
  (d.find? (fun p => p.1 == k)).map (fun p => p.2)

/-- `d.keys()` on the association-list model of a dict. -/
def dictKeys {β : Type} (d : List (String × β)) : List String :=
  d.map (fun p => p.1)

/-- `get_price` on a single symbol: `Ticker(symbol).info["currentPrice"]`.
The provider `Ticker` is the function from symbol to reported price. -/
def get_price (symbol : String) (Ticker : String → ℚ) : ℚ :=
  Ticker symbol

/-- `get_price` on a collection of symbols: the dict comprehension
`{s: get_price(s) for s in symbol}`. -/
def get_price_list (symbols : List String) (Ticker : String → ℚ) :
    List (String × ℚ) :=
  symbols.foldl (fun prices s => dictInsert prices s (get_price s Ticker)) []

/-- `get_percent_of_sticker(price, sticker_price)`:
`int(100 * round(price/sticker_price, 2))`. -/
def get_percent_of_sticker (price sticker_price : ℚ) : ℤ :=
  pyInt (100 * pyRound2 (price / sticker_price))

/-- The single-company branch of `get_deal`. -/
def get_deal_one (company : Company) (Ticker : String → ℚ) : Deal :=
  { symbol := company.symbol
    sticker_price := company.sticker_price
    price := get_price company.symbol Ticker
    percent_of_sticker :=
      get_percent_of_sticker (get_price company.symbol Ticker)
        company.sticker_price }

/-- The dict comprehension
`{company.symbol: company.sticker_price for company in companies}`
built inside `get_deals`. -/
def sticker_prices (companies : List Company) : List (String × ℚ) :=
  companies.foldl (fun d c => dictInsert d c.symbol c.sticker_price) []

/-- `get_deals(companies, Ticker)`: one `Deal` per key of the
sticker-price dict, then `sorted(deals)`, where Python's stable sort is
driven by `Deal.__lt__`. -/
def get_deals (companies : List Company) (Ticker : String → ℚ) :
    List Deal :=
  (((sticker_prices companies).map (fun p =>
    { symbol := p.1
      sticker_price := p.2
      price := get_price p.1 Ticker
      percent_of_sticker :=
        get_percent_of_sticker (get_price p.1 Ticker) p.2 : Deal })).mergeSort
    (fun a b => !(Deal.lt b a)))

/-- `get_deal(company, Ticker)`: dispatches on whether the argument is a
single company or a list of companies. -/
def get_deal (company : Company ⊕ List Company) (Ticker : String → ℚ) :
    Deal ⊕ List Deal :=
  match company with
  | Sum.inl c => Sum.inl (get_deal_one c Ticker)
  | Sum.inr cs => Sum.inr (get_deals cs Ticker)

/-- `Deal.from_(company, Ticker)`: delegates to `get_deal`. -/
def Deal.from_ (company : Company ⊕ List Company) (Ticker : String → ℚ) :
    Deal ⊕ List Deal :=
  get_deal company Ticker

/-- `round_sticker(sticker)`:
`round(sticker) if sticker >= 2 else round(sticker, 2)`. -/
def round_sticker (sticker : ℚ) : ℚ :=
  if sticker ≥ 2 then (pyRound sticker : ℚ) else pyRound2 sticker

/-- `is_valid_sticker(result)`: `result is not None and result >= 0`.
A missing (`None`) sticker price is modelled as `Option.none`. -/
def is_valid_sticker (result : Option ℚ) : Bool :=
  match result with
  | none => false
  | some v => v ≥ 0

/-- `get_stickers(items)`: iterate over the keys of `items`, fetch each
sticker price, and keep the valid ones, rounded.  The effectful
`get_sticker` HTTP call is modelled by the function `get_sticker`,
returning `none` for a missing price. -/
def get_stickers (keys : List String) (get_sticker : String → Option ℚ) :
    List (String × ℚ) :=
  keys.foldl (fun stickers key =>
    match get_sticker key with
    | none => stickers
    | some result =>
      if is_valid_sticker (some result) then
        dictInsert stickers key (round_sticker result)
      else stickers) []

/-! ## A model of Python `repr` on `Deal`

`Deal.__eq__` compares `repr(other)` with `repr(self)`.  For a
`NamedTuple` whose fields are a string and numbers, Python's `repr`
renders `Deal(symbol='...', sticker_price=..., price=..., ...)`, with the
symbol quoted and escaped and each number in a canonical form.  We model
`repr` as a character-list rendering that keeps its essential semantic
property: it is a canonical, injective encoding of the four fields
(rationals are rendered as `num/den`; the escaping of quote and backslash
inside the symbol mirrors Python's; escaping of control characters and
Python's quote-style selection are simplified, which does not affect
injectivity).  A decoder is provided to prove injectivity. -/

/-- Decimal digits of `n`, most significant first (`0` renders as `[0]`). -/
def natDigitsBE (n : ℕ) : List ℕ :=
  if n = 0 then [0] else (Nat.digits 10 n).reverse

/-- Decimal rendering of a natural number. -/
def encNat (n : ℕ) : List Char := (natDigitsBE n).map Nat.digitChar

/-- Decimal rendering of an integer, with a leading minus sign. -/
def encInt (i : ℤ) : List Char :=
  if i < 0 then '-' :: encNat i.natAbs else encNat i.natAbs

/-- Canonical rendering of a rational as `num/den`. -/
def encRat (q : ℚ) : List Char := encInt q.num ++ '/' :: encNat q.den

/-- Escaping of one symbol character, as inside a Python string repr. -/
def escapeChar (c : Char) : List Char :=
  if c = '\\' ∨ c = '\'' then ['\\', c] else [c]

/-- Escaping of the whole symbol. -/
def escapeStr : List Char → List Char
  | [] => []
  | c :: cs => escapeChar c ++ escapeStr cs

/-- The literal `Deal(symbol='`. -/
def litDealOpen : List Char :=
  ['D', 'e', 'a', 'l', '(', 's', 'y', 'm', 'b', 'o', 'l', '=', '\'']

/-- The literal `, sticker_price=`. -/
def litSticker : List Char :=
  [',', ' ', 's', 't', 'i', 'c', 'k', 'e', 'r', '_', 'p', 'r', 'i', 'c',
   'e', '=']

/-- The literal `, price=`. -/
def litPrice : List Char := [',', ' ', 'p', 'r', 'i', 'c', 'e', '=']

/-- The literal `, percent_of_sticker=`. -/
def litPercent : List Char :=
  [',', ' ', 'p', 'e', 'r', 'c', 'e', 'n', 't', '_', 'o', 'f', '_', 's',
   't', 'i', 'c', 'k', 'e', 'r', '=']

/-- The literal `)`. -/
def litClose : List Char := [')']

/-- The model of `repr` on a `Deal` value. -/
def dealRepr (d : Deal) : List Char :=
  litDealOpen ++ escapeStr d.symbol.data ++ '\'' ::
    (litSticker ++ encRat d.sticker_price ++
      (litPrice ++ encRat d.price ++
        (litPercent ++ encInt d.percent_of_sticker ++ litClose)))

/-- `Deal.__eq__`: `repr(other) != repr(self)` decides inequality. -/
def deal_eq (self other : Deal) : Bool := dealRepr other == dealRepr self

/-- Numeric value of a digit character. -/
def digitVal (c : Char) : ℕ := c.toNat - 48

/-- Greedily read decimal digits from the front of the input. -/
def takeDigits : List Char → List ℕ × List Char
  | [] => ([], [])
  | c :: cs =>
    if c.isDigit then
      let p := takeDigits cs
      (digitVal c :: p.1, p.2)
    else ([], c :: cs)

/-- Parse a nonempty run of digits as a natural number. -/
def parseNat (cs : List Char) : Option (ℕ × List Char) :=
  let p := takeDigits cs
  if p.1 = [] then none else some (Nat.ofDigits 10 p.1.reverse, p.2)

/-- Parse an optionally minus-signed run of digits as an integer. -/
def parseInt (cs : List Char) : Option (ℤ × List Char) :=
  match cs with
  | [] => none
  | c :: rest =>
    if c = '-' then (parseNat rest).map (fun p => (-(p.1 : ℤ), p.2))
    else (parseNat (c :: rest)).map (fun p => ((p.1 : ℤ), p.2))

/-- Parse `num/den`. -/
def parseRat (cs : List Char) : Option ((ℤ × ℕ) × List Char) :=
  match parseInt cs with
  | none => none
  | some (n, r) =>
    match r with
    | [] => none
    | c :: r2 =>
      if c = '/' then (parseNat r2).map (fun p => ((n, p.1), p.2))
      else none

/-- Read an escaped string up to its closing unescaped quote. -/
def unescape : List Char → Option (List Char × List Char)
  | [] => none
  | c :: rest =>
    if c = '\\' then
      match rest with
      | [] => none
      | d :: rest2 => (unescape rest2).map (fun p => (d :: p.1, p.2))
    else if c = '\'' then some ([], rest)
    else (unescape rest).map (fun p => (c :: p.1, p.2))

/-- Consume an expected literal from the front of the input. -/
def expectLit : List Char → List Char → Option (List Char)
  | [], cs => some cs
  | _ :: _, [] => none
  | p :: ps, c :: cs => if c = p then expectLit ps cs else none

/-- Decode the four fields back out of a rendered `Deal`. -/
def decodeDeal (cs : List Char) :
    Option (List Char × (ℤ × ℕ) × (ℤ × ℕ) × ℤ) :=
  (expectLit litDealOpen cs).bind fun r1 =>
  (unescape r1).bind fun sp1 =>
  (expectLit litSticker sp1.2).bind fun r3 =>
  (parseRat r3).bind fun sp2 =>
  (expectLit litPrice sp2.2).bind fun r5 =>
  (parseRat r5).bind fun sp3 =>
  (expectLit litPercent sp3.2).bind fun r7 =>
  (parseInt r7).bind fun sp4 =>
  if sp4.2 = litClose then some (sp1.1, sp2.1, sp3.1, sp4.1) else none

/-- `true` when the input does not start with a digit character. -/
def headNotDigit (cs : List Char) : Bool :=
  match cs with
  | [] => true
  | c :: _ => !c.isDigit

/-! ## Basic facts about the Python rounding primitives -/

theorem pyRound_intCast (n : ℤ) : pyRound (n : ℚ) = n := by
  rw [pyRound, Int.floor_intCast]
  rw [if_pos (by norm_num)]

theorem pyInt_intCast (n : ℤ) : pyInt (n : ℚ) = n := by
  simp [pyInt, Int.floor_intCast, Int.ceil_intCast]

theorem pyRound_nearest (q : ℚ) : |q - (pyRound q : ℚ)| ≤ 1/2 := by
  have h0 : (⌊q⌋ : ℚ) ≤ q := Int.floor_le q
  have h1 : q < ⌊q⌋ + 1 := Int.lt_floor_add_one q
  rw [pyRound]
  split_ifs with ha hb hc
  · rw [abs_le]; constructor <;> linarith
  · rw [abs_le]; push_cast; constructor <;> linarith
  · rw [not_lt] at ha hb
    rw [abs_le]; constructor <;> linarith
  · rw [not_lt] at ha hb
    rw [abs_le]; push_cast; constructor <;> linarith

theorem hundred_mul_pyRound2 (q : ℚ) :
    100 * pyRound2 q = (pyRound (q * 100) : ℚ) := by
  rw [pyRound2]; ring

/-! ## C1: the percentage computation -/

/-- C1: for every reference price `r ≠ 0` and fetched price `p`,
`get_percent_of_sticker p r` equals `round(100 * round(p/r, 2))`: the
outer operation applied to 100 times the two-decimal-rounded ratio is
rounding to the nearest integer. -/
theorem get_percent_of_sticker_eq_round (p r : ℚ) (_h : r ≠ 0) :
    get_percent_of_sticker p r = pyRound (100 * pyRound2 (p / r)) := by
  rw [get_percent_of_sticker, hundred_mul_pyRound2, pyInt_intCast,
    pyRound_intCast]

/-- Witness for C1 at `p = 3`, `r = 2`. -/
theorem get_percent_of_sticker_eq_round_witness :
    ((2 : ℚ) ≠ 0) ∧
      get_percent_of_sticker 3 2 = pyRound (100 * pyRound2 (3 / 2)) :=
  ⟨by norm_num, get_percent_of_sticker_eq_round 3 2 (by norm_num)⟩

/-! ## C3: `round_sticker` -/

/-- C3: `round_sticker` rounds to the nearest integer for every value
above `2.0` and to full cents for every value below `2.0`; in particular
`round_sticker 22.01 = 22` and `round_sticker 0.512 = 0.51`. -/
theorem round_sticker_spec (q : ℚ) :
    (2 < q →
      round_sticker q = (pyRound q : ℚ) ∧ |q - round_sticker q| ≤ 1/2) ∧
    (q < 2 →
      round_sticker q = pyRound2 q ∧
        |q * 100 - 100 * round_sticker q| ≤ 1/2) ∧
    round_sticker (2201/100) = 22 ∧ round_sticker (512/1000) = 51/100 := by
  refine ⟨fun h => ?_, fun h => ?_, ?_, ?_⟩
  · have he : round_sticker q = (pyRound q : ℚ) := if_pos (le_of_lt h)
    exact ⟨he, by rw [he]; exact pyRound_nearest q⟩
  · have he : round_sticker q = pyRound2 q := if_neg (by rw [ge_iff_le, not_le]; exact h)
    refine ⟨he, ?_⟩
    rw [he, hundred_mul_pyRound2]
    exact pyRound_nearest (q * 100)
  · norm_num [round_sticker, pyRound]
  · norm_num [round_sticker, pyRound2, pyRound]

/-- Witness for C3 at the values `3` (above 2) and `1` (below 2). -/
theorem round_sticker_spec_witness :
    round_sticker 3 = (pyRound 3 : ℚ) ∧ round_sticker 1 = pyRound2 1 :=
  ⟨((round_sticker_spec 3).1 (by norm_num)).1,
   ((round_sticker_spec 1).2.1 (by norm_num)).1⟩

/-! ## C5: the mocked `msft` deal -/

/-- C5: with the stub provider returning `352.5` for `"msft"` and sticker
price `118`, `get_deal` produces a `Deal` with price `352.5` and
`percent_of_sticker = 299`. -/
theorem get_deal_msft :
    get_deal (Sum.inl ⟨"msft", 118⟩) MockTicker =
      Sum.inl ⟨"msft", 118, 705/2, 299⟩ := by
  norm_num [get_deal, get_deal_one, get_price, MockTicker,
    get_percent_of_sticker, pyRound2, pyRound, pyInt]

/-! ## C9: `Deal.from_` delegates to `get_deal` -/

/-- C9: for every input (single company or list) and every provider,
`Deal.from_` returns exactly the result of `get_deal`. -/
theorem from_eq_get_deal (company : Company ⊕ List Company)
    (Ticker : String → ℚ) :
    Deal.from_ company Ticker = get_deal company Ticker := rfl

/-! ## C10: empty inputs -/

/-- C10: `get_price` on an empty collection returns the empty mapping,
independently of the provider, and `get_deals` on an empty list of
companies returns the empty list. -/
theorem empty_collection_results :
    (∀ Ticker : String → ℚ, get_price_list [] Ticker = []) ∧
    (∀ Ticker : String → ℚ, get_deals [] Ticker = []) := by
  refine ⟨fun _ => rfl, fun T => ?_⟩
  simp [get_deals, sticker_prices]

/-! ## Dictionary lemmas -/

theorem dictAny_iff {β : Type} (d : List (String × β)) (k : String) :
    d.any (fun p => p.1 == k) = true ↔ k ∈ dictKeys d := by
  simp [dictKeys, List.any_eq_true]

theorem find?_update_self {β : Type} (k : String) (v : β) :
    ∀ d : List (String × β), d.any (fun p => p.1 == k) = true →
      (d.map (fun p => if p.1 == k then (k, v) else p)).find?
        (fun p => p.1 == k) = some (k, v) := by
  intro d
  induction d with
  | nil => simp
  | cons p rest ih =>
    intro h
    by_cases hp : p.1 = k
    · simp [List.find?_cons, hp]
    · have h' : rest.any (fun p => p.1 == k) = true := by
        simpa [List.any_cons, hp] using h
      simpa [List.find?_cons, hp] using ih h'

theorem find?_update_ne {β : Type} (k k' : String) (v : β) (hne : k' ≠ k) :
    ∀ d : List (String × β),
      (d.map (fun p => if p.1 == k then (k, v) else p)).find?
        (fun p => p.1 == k') = d.find? (fun p => p.1 == k') := by
  intro d
  induction d with
  | nil => simp
  | cons p rest ih =>
    by_cases hp : p.1 = k
    · have hk : ¬(k = k') := fun he => hne he.symm
      simpa [List.find?_cons, hp, hk] using ih
    · by_cases hp' : p.1 = k'
      · simp [List.find?_cons, hp, hp', hne]
      · simpa [List.find?_cons, hp, hp'] using ih

theorem dictKeys_update {β : Type} (k : String) (v : β) :
    ∀ d : List (String × β),
      dictKeys (d.map (fun p => if p.1 == k then (k, v) else p)) =
        dictKeys d := by
  intro d
  induction d with
  | nil => rfl
  | cons p rest ih =>
    by_cases hp : p.1 = k
    · simpa [dictKeys, hp] using congrArg (List.cons k) ih
    · simpa [dictKeys, hp] using congrArg (List.cons p.1) ih

theorem dictFind_dictInsert_self {β : Type} (d : List (String × β))
    (k : String) (v : β) : dictFind (dictInsert d k v) k = some v := by
  rw [dictInsert, dictFind]
  split_ifs with h
  · rw [find?_update_self k v d h]
    rfl
  · rw [List.find?_append]
    have hnone : d.find? (fun p => p.1 == k) = none := by
      rw [List.find?_eq_none]
      intro x hx hbeq
      exact h ((dictAny_iff d k).mpr (by
        simp only [dictKeys, List.mem_map]
        exact ⟨x, hx, by simpa using hbeq⟩))
    simp [hnone]

theorem dictFind_dictInsert_ne {β : Type} (d : List (String × β))
    (k k' : String) (v : β) (hne : k' ≠ k) :
    dictFind (dictInsert d k v) k' = dictFind d k' := by
  rw [dictInsert, dictFind, dictFind]
  split_ifs with h
  · rw [find?_update_ne k k' v hne d]
  · rw [List.find?_append]
    have hkk : (k == k') = false :=
      beq_eq_false_iff_ne.mpr (fun he => hne he.symm)
    have hlast : ([(k, v)].find? (fun p => p.1 == k')) = none := by
      simp [List.find?_cons, hkk]
    rw [hlast, Option.or_none]

theorem dictKeys_dictInsert {β : Type} (d : List (String × β))
    (k : String) (v : β) :
    dictKeys (dictInsert d k v) =
      if k ∈ dictKeys d then dictKeys d else dictKeys d ++ [k] := by
  rw [dictInsert]
  by_cases h : d.any (fun p => p.1 == k) = true
  · rw [if_pos h, dictKeys_update, if_pos ((dictAny_iff d k).mp h)]
  · rw [if_neg h, if_neg (fun hm => h ((dictAny_iff d k).mpr hm))]
    simp [dictKeys]

theorem dictKeys_nodup_insert {β : Type} (d : List (String × β))
    (k : String) (v : β) (h : (dictKeys d).Nodup) :
    (dictKeys (dictInsert d k v)).Nodup := by
  rw [dictKeys_dictInsert]
  split_ifs with hm
  · exact h
  · simp [List.nodup_append, h, hm]

theorem dictFind_eq_none_iff {β : Type} (d : List (String × β))
    (k : String) : dictFind d k = none ↔ k ∉ dictKeys d := by
  simp only [dictFind, Option.map_eq_none', List.find?_eq_none, dictKeys,
    List.mem_map]
  constructor
  · rintro h ⟨x, hx, he⟩
    exact h x hx (by simpa using he)
  · intro h x hx hbeq
    exact h ⟨x, hx, by simpa using hbeq⟩

theorem dictKeys_nodup_foldl {β γ : Type}
    (step : List (String × β) → γ → List (String × β))
    (hstep : ∀ d x, (dictKeys d).Nodup → (dictKeys (step d x)).Nodup) :
    ∀ (l : List γ) (acc : List (String × β)), (dictKeys acc).Nodup →
      (dictKeys (l.foldl step acc)).Nodup := by
  intro l
  induction l with
  | nil => exact fun acc h => h
  | cons x xs ih => exact fun acc h => ih _ (hstep _ _ h)

/-! ## C7: `get_price` on a collection deduplicates -/

theorem get_price_list_aux (Ticker : String → ℚ) (s : String) :
    ∀ (symbols : List String) (acc : List (String × ℚ)),
      dictFind
        (symbols.foldl
          (fun prices y => dictInsert prices y (get_price y Ticker)) acc) s =
        if s ∈ symbols then some (Ticker s) else dictFind acc s := by
  intro symbols
  induction symbols with
  | nil => simp
  | cons y rest ih =>
    intro acc
    rw [List.foldl_cons, ih]
    by_cases hr : s ∈ rest
    · simp [hr]
    · by_cases hy : y = s
      · subst hy
        simp [hr, dictFind_dictInsert_self, get_price]
      · have hys : ¬(s = y) := fun he => hy he.symm
        simp [hr, hys, dictFind_dictInsert_ne _ _ _ _ hys]

/-- C7: `get_price` on a collection of symbols returns a mapping in which
each distinct symbol appears exactly once as a key (keys are
duplicate-free, and a symbol is a key exactly when it occurs in the
input), and each symbol's value is the price the provider returns for
it. -/
theorem get_price_list_spec (symbols : List String) (Ticker : String → ℚ)
    (s : String) :
    (dictKeys (get_price_list symbols Ticker)).Nodup ∧
    (s ∈ dictKeys (get_price_list symbols Ticker) ↔ s ∈ symbols) ∧
    dictFind (get_price_list symbols Ticker) s =
      (if s ∈ symbols then some (get_price s Ticker) else none) := by
  have hfind := get_price_list_aux Ticker s symbols []
  have hfind' : dictFind (get_price_list symbols Ticker) s =
      if s ∈ symbols then some (Ticker s) else none := by
    rw [get_price_list, hfind]
    rfl
  refine ⟨?_, ?_, ?_⟩
  · exact dictKeys_nodup_foldl _
      (fun d x h => dictKeys_nodup_insert _ _ _ h) symbols [] List.nodup_nil
  · constructor
    · intro hmem
      by_contra hs
      have hnone : dictFind (get_price_list symbols Ticker) s = none := by
        rw [hfind']
        simp [hs]
      exact (dictFind_eq_none_iff _ _).mp hnone hmem
    · intro hs
      by_contra hmem
      have hnone := (dictFind_eq_none_iff (get_price_list symbols Ticker) s).mpr hmem
      rw [hfind'] at hnone
      simp [hs] at hnone
  · rw [hfind']
    rfl

/-! ## C6: `get_stickers` filtering -/

theorem get_stickers_aux (get_sticker : String → Option ℚ) (k : String) :
    ∀ (keys : List String) (acc : List (String × ℚ)),
      dictFind
        (keys.foldl (fun stickers key =>
          match get_sticker key with
          | none => stickers
          | some result =>
            if is_valid_sticker (some result) then
              dictInsert stickers key (round_sticker result)
            else stickers) acc) k =
        match get_sticker k with
        | some r =>
          if k ∈ keys ∧ 0 ≤ r then some (round_sticker r) else dictFind acc k
        | none => dictFind acc k := by
  intro keys
  induction keys with
  | nil =>
    intro acc
    rcases h : get_sticker k with _ | r <;> simp [h]
  | cons key rest ih =>
    intro acc
    rw [List.foldl_cons, ih]
    by_cases hkey : key = k
    · subst hkey
      rcases h : get_sticker key with _ | r
      · simp [h]
      · by_cases hr : (0:ℚ) ≤ r
        · by_cases hm : key ∈ rest <;>
            simp [h, hm, hr, is_valid_sticker, dictFind_dictInsert_self]
        · simp [h, hr, is_valid_sticker]
    · have hne : ¬(k = key) := fun he => hkey he.symm
      rcases h' : get_sticker key with _ | r'
      · rcases h : get_sticker k with _ | r <;> simp [h, h', hne]
      · by_cases hv : (0:ℚ) ≤ r'
        · rcases h : get_sticker k with _ | r <;>
            simp [h, h', hne, is_valid_sticker, hv,
              dictFind_dictInsert_ne _ _ _ _ hne]
        · rcases h : get_sticker k with _ | r <;>
            simp [h, h', hne, is_valid_sticker, hv]

/-- C6: in `get_stickers`, a symbol is a key of the output exactly when
its fetched sticker price is present and non-negative, in which case its
value is the rounded sticker price; a missing (`none`) or negative result
excludes the symbol, and no other filtering occurs. -/
theorem get_stickers_spec (keys : List String)
    (get_sticker : String → Option ℚ) (k : String) :
    dictFind (get_stickers keys get_sticker) k =
      match get_sticker k with
      | some r =>
        if k ∈ keys ∧ 0 ≤ r then some (round_sticker r) else none
      | none => none := by
  have h := get_stickers_aux get_sticker k keys []
  rw [get_stickers]
  rw [h]
  rcases hk : get_sticker k with _ | r
  · rfl
  · by_cases hc : k ∈ keys ∧ 0 ≤ r <;> simp [hc, dictFind]

/-! ## C2: `get_deals` output is sorted -/

/-- C2: for every list of companies, in every input ordering, the deals
returned by `get_deals` are sorted ascending by `percent_of_sticker`. -/
theorem get_deals_sorted (companies : List Company) (Ticker : String → ℚ) :
    List.Sorted
      (fun a b : Deal => a.percent_of_sticker ≤ b.percent_of_sticker)
      (get_deals companies Ticker) := by
  have htrans : ∀ a b c : Deal, (!(Deal.lt b a)) = true →
      (!(Deal.lt c b)) = true → (!(Deal.lt c a)) = true := by
    intro a b c h1 h2
    simp only [Deal.lt, Bool.not_eq_true', decide_eq_false_iff_not,
      not_lt] at h1 h2 ⊢
    omega
  have htotal : ∀ a b : Deal,
      ((!(Deal.lt b a)) || (!(Deal.lt a b))) = true := by
    intro a b
    simp only [Deal.lt, Bool.not_eq_true', decide_eq_false_iff_not, not_lt,
      Bool.or_eq_true]
    omega
  have h := List.sorted_mergeSort htrans htotal
    ((sticker_prices companies).map (fun p =>
      { symbol := p.1
        sticker_price := p.2
        price := get_price p.1 Ticker
        percent_of_sticker :=
          get_percent_of_sticker (get_price p.1 Ticker) p.2 : Deal }))
  rw [get_deals]
  refine List.Pairwise.imp ?_ h
  intro a b hab
  simpa [Deal.lt, not_lt] using hab

/-! ## C8: duplicate symbols and last-occurrence sticker prices -/

theorem sticker_prices_aux (s : String) :
    ∀ (companies : List Company) (acc : List (String × ℚ)),
      dictFind (companies.foldl
        (fun d c => dictInsert d c.symbol c.sticker_price) acc) s =
        match companies.reverse.find? (fun c => c.symbol == s) with
        | some c => some c.sticker_price
        | none => dictFind acc s := by
  intro companies
  induction companies with
  | nil => intro acc; rfl
  | cons c cs ih =>
    intro acc
    rw [List.foldl_cons, ih]
    rw [List.reverse_cons, List.find?_append]
    rcases hf : cs.reverse.find? (fun c => c.symbol == s) with _ | c' <;>
      rw [hf]
    · simp only [Option.none_or]
      by_cases hc : c.symbol = s
      · simp [List.find?_cons, hc, dictFind_dictInsert_self]
      · have hns : ¬(s = c.symbol) := fun he => hc he.symm
        simp [List.find?_cons, hc, dictFind_dictInsert_ne _ _ _ _ hns]
    · rfl

theorem filter_eq_of_nodup {β : Type} (k : String) :
    ∀ d : List (String × β), (dictKeys d).Nodup →
      d.filter (fun p => p.1 == k) =
        match d.find? (fun p => p.1 == k) with
        | some e => [e]
        | none => [] := by
  intro d
  induction d with
  | nil => intro _; rfl
  | cons p rest ih =>
    intro hnd
    rw [dictKeys, List.map_cons, List.nodup_cons] at hnd
    by_cases hp : p.1 = k
    · have hrest : rest.filter (fun p => p.1 == k) = [] := by
        rw [List.filter_eq_nil_iff]
        intro a ha hbeq
        refine hnd.1 ?_
        rw [beq_iff_eq] at hbeq
        rw [← hp] at hbeq
        exact List.mem_map.mpr ⟨a, ha, hbeq⟩
      simp [List.filter_cons, List.find?_cons, hp, hrest]
    · simp [List.filter_cons, List.find?_cons, hp, ih hnd.2]

/-- C8: when a symbol occurs more than once in the input, `get_deals`
produces exactly one `Deal` for it, and its sticker price is the one of
the last occurrence in the input list. -/
theorem get_deals_last_occurrence (companies : List Company)
    (Ticker : String → ℚ) (s : String) (c0 : Company)
    (h : companies.reverse.find? (fun c => c.symbol == s) = some c0) :
    (get_deals companies Ticker).filter (fun d => d.symbol == s) =
      [{ symbol := s, sticker_price := c0.sticker_price,
         price := Ticker s,
         percent_of_sticker :=
           get_percent_of_sticker (Ticker s) c0.sticker_price }] := by
  have hfind : dictFind (sticker_prices companies) s =
      some c0.sticker_price := by
    have haux := sticker_prices_aux s companies []
    rw [sticker_prices]
    rw [haux, h]
  obtain ⟨e, he, hev⟩ := Option.map_eq_some'.mp hfind
  have he1 : e.1 = s := by
    have := List.find?_some he
    simpa using this
  have heq : e = (s, c0.sticker_price) := by
    rcases e with ⟨e1, e2⟩
    simp_all
  rw [heq] at he
  have hnodup : (dictKeys (sticker_prices companies)).Nodup :=
    dictKeys_nodup_foldl _ (fun d x hx => dictKeys_nodup_insert _ _ _ hx)
      companies [] List.nodup_nil
  have hfilter : (sticker_prices companies).filter (fun p => p.1 == s) =
      [(s, c0.sticker_price)] := by
    rw [filter_eq_of_nodup s (sticker_prices companies) hnodup, he]
  have hpre : (((sticker_prices companies).map (fun p =>
      { symbol := p.1
        sticker_price := p.2
        price := get_price p.1 Ticker
        percent_of_sticker :=
          get_percent_of_sticker (get_price p.1 Ticker) p.2 : Deal })).filter
        (fun d => d.symbol == s)) =
      [{ symbol := s, sticker_price := c0.sticker_price,
         price := Ticker s,
         percent_of_sticker :=
           get_percent_of_sticker (Ticker s) c0.sticker_price }] := by
    rw [List.filter_map]
    have hcomp : ((fun d : Deal => d.symbol == s) ∘ (fun p : String × ℚ =>
        ({ symbol := p.1
           sticker_price := p.2
           price := get_price p.1 Ticker
           percent_of_sticker :=
             get_percent_of_sticker (get_price p.1 Ticker) p.2 : Deal }))) =
        (fun p : String × ℚ => p.1 == s) := rfl
    rw [hcomp, hfilter]
    rfl
  rw [get_deals]
  have hperm := (List.mergeSort_perm ((sticker_prices companies).map (fun p =>
      { symbol := p.1
        sticker_price := p.2
        price := get_price p.1 Ticker
        percent_of_sticker :=
          get_percent_of_sticker (get_price p.1 Ticker) p.2 : Deal }))
    (fun a b => !(Deal.lt b a))).filter (fun d => d.symbol == s)
  rw [hpre] at hperm
  exact List.perm_singleton.mp hperm

/-- Witness for C8: the symbol `"a"` occurs twice; the single resulting
deal uses the sticker price `2` of the last occurrence. -/
theorem get_deals_last_occurrence_witness :
    ([⟨"a", 1⟩, ⟨"a", 2⟩] : List Company).reverse.find?
        (fun c => c.symbol == "a") = some (⟨"a", 2⟩ : Company) ∧
    (get_deals [⟨"a", 1⟩, ⟨"a", 2⟩] (fun _ => 3)).filter
        (fun d => d.symbol == "a") =
      [{ symbol := "a", sticker_price := 2, price := 3,
         percent_of_sticker := get_percent_of_sticker 3 2 }] :=
  ⟨rfl, get_deals_last_occurrence [⟨"a", 1⟩, ⟨"a", 2⟩] (fun _ => 3) "a"
    ⟨"a", 2⟩ rfl⟩

/-! ## C4: `Deal` equality is structural

The proof that the repr comparison in `Deal.__eq__` coincides with
field-wise equality goes through a round trip: `decodeDeal` recovers the
four fields from the rendering, hence the rendering is injective. -/

theorem digitVal_digitChar {d : ℕ} (h : d < 10) :
    digitVal (Nat.digitChar d) = d := by
  interval_cases d <;> decide

theorem isDigit_digitChar {d : ℕ} (h : d < 10) :
    (Nat.digitChar d).isDigit = true := by
  interval_cases d <;> decide

theorem natDigitsBE_lt (n : ℕ) : ∀ d ∈ natDigitsBE n, d < 10 := by
  intro d hd
  rw [natDigitsBE] at hd
  split_ifs at hd with h
  · simp at hd
    omega
  · exact Nat.digits_lt_base (by norm_num) (List.mem_reverse.mp hd)

theorem natDigitsBE_ne_nil (n : ℕ) : natDigitsBE n ≠ [] := by
  rw [natDigitsBE]
  split_ifs with h
  · simp
  · simp [Nat.digits_ne_nil_iff_ne_zero.mpr h]

theorem ofDigits_natDigitsBE (n : ℕ) :
    Nat.ofDigits 10 (natDigitsBE n).reverse = n := by
  rw [natDigitsBE]
  split_ifs with h
  · subst h
    simp [Nat.ofDigits]
  · rw [List.reverse_reverse, Nat.ofDigits_digits]

theorem encNat_isDigit (n : ℕ) : ∀ c ∈ encNat n, c.isDigit = true := by
  intro c hc
  obtain ⟨d, hd, rfl⟩ := List.mem_map.mp hc
  exact isDigit_digitChar (natDigitsBE_lt n d hd)

theorem takeDigits_nodigit (r : List Char) (h : headNotDigit r = true) :
    takeDigits r = ([], r) := by
  cases r with
  | nil => rfl
  | cons c cs =>
    rw [headNotDigit, Bool.not_eq_true'] at h
    simp [takeDigits, h]

theorem takeDigits_spec :
    ∀ (ds : List ℕ) (r : List Char), (∀ d ∈ ds, d < 10) →
      headNotDigit r = true →
      takeDigits (ds.map Nat.digitChar ++ r) = (ds, r) := by
  intro ds
  induction ds with
  | nil =>
    intro r _ hr
    simpa using takeDigits_nodigit r hr
  | cons d ds ih =>
    intro r hlt hr
    have hd : d < 10 := hlt d (by simp)
    rw [List.map_cons, List.cons_append]
    simp [takeDigits, isDigit_digitChar hd, digitVal_digitChar hd,
      ih r (fun x hx => hlt x (by simp [hx])) hr]

theorem parseNat_spec (n : ℕ) (r : List Char)
    (hr : headNotDigit r = true) : parseNat (encNat n ++ r) = some (n, r) := by
  rw [parseNat, encNat, takeDigits_spec (natDigitsBE n) r (natDigitsBE_lt n) hr]
  simp [natDigitsBE_ne_nil n, ofDigits_natDigitsBE n]

theorem parseInt_spec (i : ℤ) (r : List Char)
    (hr : headNotDigit r = true) : parseInt (encInt i ++ r) = some (i, r) := by
  rw [encInt]
  split_ifs with h
  · rw [List.cons_append]
    have hval : -((i.natAbs : ℤ)) = i := by omega
    show (parseNat (encNat i.natAbs ++ r)).map
      (fun p => (-(p.1 : ℤ), p.2)) = some (i, r)
    rw [parseNat_spec i.natAbs r hr]
    simp only [Option.map_some', hval]
  · have hne : encNat i.natAbs ≠ [] := by
      rw [encNat]
      simpa using natDigitsBE_ne_nil i.natAbs
    obtain ⟨c, t, hct⟩ := List.exists_cons_of_ne_nil hne
    have hcdig : c.isDigit = true :=
      encNat_isDigit i.natAbs c (by rw [hct]; simp)
    have hcne : ¬(c = '-') := by
      intro he
      rw [he] at hcdig
      exact absurd hcdig (by decide)
    rw [hct, List.cons_append]
    rw [parseInt.eq_def]
    simp only [hcne, if_false]
    rw [← List.cons_append, ← hct, parseNat_spec i.natAbs r hr]
    simp
    omega

theorem headNotDigit_slash (r : List Char) :
    headNotDigit ('/' :: r) = true := rfl

theorem parseRat_spec (q : ℚ) (r : List Char)
    (hr : headNotDigit r = true) :
    parseRat (encRat q ++ r) = some ((q.num, q.den), r) := by
  have hassoc : encRat q ++ r =
      encInt q.num ++ ('/' :: (encNat q.den ++ r)) := by
    simp [encRat]
  rw [hassoc, parseRat.eq_def,
    parseInt_spec q.num ('/' :: (encNat q.den ++ r)) (headNotDigit_slash _)]
  simp [parseNat_spec q.den r hr]

theorem escapeStr_cons (c : Char) (cs : List Char) :
    escapeStr (c :: cs) = escapeChar c ++ escapeStr cs := rfl

theorem unescape_quote (r : List Char) :
    unescape ('\'' :: r) = some ([], r) := by
  have h1 : ¬('\'' = '\\') := by decide
  rw [unescape.eq_def]
  simp [h1]

theorem unescape_backslash (c : Char) (r : List Char) :
    unescape ('\\' :: c :: r) =
      (unescape r).map (fun p => (c :: p.1, p.2)) := by
  rw [unescape.eq_def]
  simp

theorem unescape_plain (c : Char) (r : List Char) (h1 : ¬(c = '\\'))
    (h2 : ¬(c = '\'')) :
    unescape (c :: r) = (unescape r).map (fun p => (c :: p.1, p.2)) := by
  rw [unescape.eq_def]
  simp [h1, h2]

theorem unescape_spec : ∀ (s r : List Char),
    unescape (escapeStr s ++ '\'' :: r) = some (s, r) := by
  intro s
  induction s with
  | nil =>
    intro r
    exact unescape_quote r
  | cons c cs ih =>
    intro r
    rw [escapeStr_cons, escapeChar]
    split_ifs with h
    · show unescape ('\\' :: c :: (escapeStr cs ++ '\'' :: r)) = _
      rw [unescape_backslash, ih r]
      rfl
    · have h1 : ¬(c = '\\') := fun he => h (Or.inl he)
      have h2 : ¬(c = '\'') := fun he => h (Or.inr he)
      show unescape (c :: (escapeStr cs ++ '\'' :: r)) = _
      rw [unescape_plain c _ h1 h2, ih r]
      rfl

theorem expectLit_spec : ∀ (lit cs : List Char),
    expectLit lit (lit ++ cs) = some cs := by
  intro lit
  induction lit with
  | nil => intro cs; rfl
  | cons p ps ih =>
    intro cs
    simp [expectLit, ih cs]

theorem headNotDigit_litSticker (r : List Char) :
    headNotDigit (litSticker ++ r) = true := rfl

theorem headNotDigit_litPrice (r : List Char) :
    headNotDigit (litPrice ++ r) = true := rfl

theorem headNotDigit_litPercent (r : List Char) :
    headNotDigit (litPercent ++ r) = true := rfl

theorem headNotDigit_litClose : headNotDigit litClose = true := rfl

theorem decodeDeal_dealRepr (d : Deal) :
    decodeDeal (dealRepr d) =
      some (d.symbol.data, (d.sticker_price.num, d.sticker_price.den),
        (d.price.num, d.price.den), d.percent_of_sticker) := by
  have hshape : dealRepr d = litDealOpen ++
      (escapeStr d.symbol.data ++ '\'' ::
        (litSticker ++ (encRat d.sticker_price ++
          (litPrice ++ (encRat d.price ++
            (litPercent ++ (encInt d.percent_of_sticker ++ litClose))))))) := by
    simp [dealRepr]
  rw [hshape]
  simp only [decodeDeal, expectLit_spec, unescape_spec, Option.some_bind]
  rw [parseRat_spec d.sticker_price _ (headNotDigit_litPrice _)]
  simp only [Option.some_bind]
  rw [expectLit_spec]
  simp only [Option.some_bind]
  rw [parseRat_spec d.price _ (headNotDigit_litPercent _)]
  simp only [Option.some_bind]
  rw [expectLit_spec]
  simp only [Option.some_bind]
  rw [parseInt_spec d.percent_of_sticker _ headNotDigit_litClose]
  simp

/-- C4: equality on `Deal` (comparison of the repr renderings, as in
`Deal.__eq__`) holds exactly when all four fields agree; changing any
single field breaks equality. -/
theorem deal_eq_iff_structural (d1 d2 : Deal) :
    deal_eq d1 d2 = true ↔
      (d1.symbol = d2.symbol ∧ d1.sticker_price = d2.sticker_price ∧
        d1.price = d2.price ∧
        d1.percent_of_sticker = d2.percent_of_sticker) := by
  constructor
  · intro h
    have hrepr : dealRepr d2 = dealRepr d1 := by
      rw [deal_eq] at h
      exact eq_of_beq h
    have hdec := congrArg decodeDeal hrepr
    rw [decodeDeal_dealRepr, decodeDeal_dealRepr] at hdec
    simp only [Option.some.injEq, Prod.mk.injEq] at hdec
    obtain ⟨hs, ⟨hn1, hd1⟩, ⟨hn2, hd2⟩, hp⟩ := hdec
    exact ⟨(String.ext hs).symm, (Rat.ext hn1 hd1).symm,
      (Rat.ext hn2 hd2).symm, hp.symm⟩
  · rintro ⟨h1, h2, h3, h4⟩
    have hdd : d1 = d2 := by
      cases d1
      cases d2
      simp_all
    rw [hdd, deal_eq]
    simp

end RuleOne
